import Mathlib

/-!
Verification of the OSM Mozambique extraction pipeline
(`extract_mozambique_osm.py`, `compute_centroids.py`) against its
natural-language specification.

The Python code is shallowly embedded: JSON-ish coordinate values become an
inductive type, Python runtime errors (`IndexError`, `TypeError`) become an
explicit error monad (`Except PyErr`), numbers become `ℚ`, and dictionaries
become association lists with Python-dict update semantics (replace in place,
append when fresh).
-/

/-- Python runtime errors that the embedded fragments can raise. -/
inductive PyErr where
  | indexError
  | typeError
deriving DecidableEq, Repr

/-- A JSON-ish coordinate value as `compute_centroid` consumes it:
`nul` stands for Python `None` (also for an absent `"coordinates"` key,
since `dict.get` returns `None`), `num` for a number, `arr` for a list. -/
inductive CoordVal where
  | nul : CoordVal
  | num : ℚ → CoordVal
  | arr : List CoordVal → CoordVal

/-- A GeoJSON geometry object as the Python code sees it: the result of
`geometry.get("type")` and `geometry.get("coordinates")`. -/
structure Geometry where
  type : Option String
  coordinates : CoordVal

/-- Python truthiness for the embedded values: `None` and `0` and `[]`
are falsy, everything else truthy. -/
def truthy : CoordVal → Bool
  | .nul => false
  | .num q => decide (q ≠ 0)
  | .arr xs => !xs.isEmpty

/-- Python subscripting `v[i]` (non-negative index): a list yields the
element or `IndexError`; anything else is not subscriptable (`TypeError`). -/
def pyIndex (v : CoordVal) (i : ℕ) : Except PyErr CoordVal :=
  match v with
  | .arr xs =>
    match xs.get? i with
    | some x => .ok x
    | none => .error .indexError
  | _ => .error .typeError

/-- Python iteration `for pt in v`: only lists are iterable here. -/
def pyIter (v : CoordVal) : Except PyErr (List CoordVal) :=
  match v with
  | .arr xs => .ok xs
  | _ => .error .typeError

/-- Python `len(v)` for lists. -/
def pyLen (v : CoordVal) : Except PyErr ℕ :=
  match v with
  | .arr xs => .ok xs.length
  | _ => .error .typeError

/-- A value used as a number (summand): anything but a number raises
`TypeError`, as Python `sum` does when adding a non-number. -/
def pyNum (v : CoordVal) : Except PyErr ℚ :=
  match v with
  | .num q => .ok q
  | _ => .error .typeError

/-- `sum(pt[i] for pt in pts)`: walk the points in order, indexing each and
adding; the first failing point raises, as in Python. -/
def sumAt (pts : List CoordVal) (i : ℕ) : Except PyErr ℚ :=
  match pts with
  | [] => .ok 0
  | pt :: rest =>
    match pyIndex pt i with
    | .error e => .error e
    | .ok c =>
      match pyNum c with
      | .error e => .error e
      | .ok q =>
        match sumAt rest i with
        | .error e => .error e
        | .ok s => .ok (q + s)

/-- Embedding of `compute_centroid` (compute_centroids.py, lines 12-56),
branch by branch.  `Except` threads the Python exceptions; `.ok .nul` is the
Python `return None` ("unreducible"). -/
def compute_centroid (g : Geometry) : Except PyErr CoordVal :=
  if g.type = some "Point" then
    .ok g.coordinates
  else if g.type = some "Polygon" then
    match pyIndex g.coordinates 0 with
    | .error e => .error e
    | .ok ring =>
      if truthy ring then
        match pyIter ring with
        | .error e => .error e
        | .ok pts =>
          match sumAt pts 0 with
          | .error e => .error e
          | .ok sx =>
            match sumAt pts 1 with
            | .error e => .error e
            | .ok sy => .ok (.arr [.num (sx / pts.length), .num (sy / pts.length)])
      else .ok .nul
  else if g.type = some "MultiPolygon" then
    if truthy g.coordinates then
      match pyIndex g.coordinates 0 with
      | .error e => .error e
      | .ok c0 =>
        if truthy c0 then
          match pyIndex c0 0 with
          | .error e => .error e
          | .ok ring =>
            if truthy ring then
              match pyIter ring with
              | .error e => .error e
              | .ok pts =>
                match sumAt pts 0 with
                | .error e => .error e
                | .ok sx =>
                  match sumAt pts 1 with
                  | .error e => .error e
                  | .ok sy => .ok (.arr [.num (sx / pts.length), .num (sy / pts.length)])
            else .ok .nul
        else .ok .nul
    else .ok .nul
  else if g.type = some "LineString" then
    if truthy g.coordinates then
      match pyLen g.coordinates with
      | .error e => .error e
      | .ok n => pyIndex g.coordinates (n / 2)
    else .ok .nul
  else if g.type = some "MultiLineString" then
    if truthy g.coordinates then
      match pyIndex g.coordinates 0 with
      | .error e => .error e
      | .ok line =>
        if truthy line then
          match pyLen line with
          | .error e => .error e
          | .ok n => pyIndex line (n / 2)
        else .ok .nul
    else .ok .nul
  else .ok .nul

/-- A value shaped like a GeoJSON position whose first two entries are
numbers (the code reads `pt[0]` and `pt[1]`). -/
def isPos : CoordVal → Bool
  | .arr (.num _ :: .num _ :: _) => true
  | _ => false

/-- A value shaped like a linear ring: a list of positions. -/
def isRing : CoordVal → Bool
  | .arr pts => pts.all isPos
  | _ => false

/-- Coordinates well nested for the geometry's declared kind (arrays of the
right depth, positions carrying numbers); unknown kinds and `Point` place no
constraint because the code touches their coordinates only opaquely. -/
def wellFormed (g : Geometry) : Bool :=
  match g.type with
  | none => true
  | some t =>
    if t = "Polygon" then
      match g.coordinates with
      | .arr rings => rings.all isRing
      | _ => false
    else if t = "MultiPolygon" then
      match g.coordinates with
      | .arr polys => polys.all isRing'
      | _ => false
    else if t = "LineString" then
      isRing g.coordinates
    else if t = "MultiLineString" then
      match g.coordinates with
      | .arr lines => lines.all isRing
      | _ => false
    else true
where
  /-- a list of rings (one polygon of a MultiPolygon) -/
  isRing' : CoordVal → Bool
  | .arr rings => rings.all isRing
  | _ => false

theorem isPos_shape {p : CoordVal} (h : isPos p = true) :
    ∃ x y t, p = CoordVal.arr (CoordVal.num x :: CoordVal.num y :: t) :=
  match p, h with
  | .arr (.num x :: .num y :: t), _ => ⟨x, y, t, rfl⟩

theorem sumAt_ok (pts : List CoordVal) (i : ℕ) (hp : pts.all isPos = true)
    (hi : i < 2) : ∃ q, sumAt pts i = Except.ok q := by
  induction pts with
  | nil => exact ⟨0, rfl⟩
  | cons p rest ih =>
    rw [List.all_cons, Bool.and_eq_true] at hp
    obtain ⟨s, hs⟩ := ih hp.2
    obtain ⟨x, y, t, rfl⟩ := isPos_shape hp.1
    match i, hi with
    | 0, _ => exact ⟨x + s, by simp [sumAt, pyIndex, pyNum, hs]⟩
    | 1, _ => exact ⟨y + s, by simp [sumAt, pyIndex, pyNum, hs]⟩

/-- Claim C2, counterexample: `compute_centroid` on a `Polygon` whose rings
sequence is empty raises `IndexError` (from `coords[0]`) instead of returning
the "unreducible" signal the claim promises. -/
theorem compute_centroid_empty_polygon_raises :
    compute_centroid ⟨some "Polygon", CoordVal.arr []⟩ = Except.error PyErr.indexError ∧
    compute_centroid ⟨some "Polygon", CoordVal.arr []⟩ ≠ Except.ok CoordVal.nul :=
  ⟨rfl, fun h => nomatch h⟩

/-- Claim C2 (amended): on any geometry whose coordinates are well nested for
its declared kind, `compute_centroid` never raises — it returns a value (a
coordinate pair, the verbatim `Point` coordinates, or `None` for
"unreducible") — with the single exception of a `Polygon` whose rings
sequence is empty, where `coords[0]` raises `IndexError`.  A `Polygon` whose
rings sequence is non-empty but whose outer ring is empty is reported
unreducible (`None`), not an error. -/
theorem compute_centroid_never_raises (g : Geometry) (hwf : wellFormed g = true) :
    ((∃ v, compute_centroid g = Except.ok v) ∨
      (g.type = some "Polygon" ∧ g.coordinates = CoordVal.arr [] ∧
        compute_centroid g = Except.error PyErr.indexError)) ∧
    (g.type = some "Polygon" →
      ∀ rest, g.coordinates = CoordVal.arr (CoordVal.arr [] :: rest) →
        compute_centroid g = Except.ok CoordVal.nul) := by
  obtain ⟨t, c⟩ := g
  rcases t with _ | s
  · exact ⟨Or.inl ⟨CoordVal.nul, by simp [compute_centroid]⟩, fun h => nomatch h⟩
  by_cases h1 : s = "Point"
  · subst h1
    exact ⟨Or.inl ⟨c, by simp [compute_centroid]⟩,
      fun h => absurd (Option.some.inj h) (by decide)⟩
  by_cases h2 : s = "Polygon"
  · subst h2
    rcases c with _ | q | rings
    · simp [wellFormed] at hwf
    · simp [wellFormed] at hwf
    rcases rings with _ | ⟨r0, rs⟩
    · refine ⟨Or.inr ⟨rfl, rfl, rfl⟩, ?_⟩
      intro _ rest h
      simp at h
    have hr0 : isRing r0 = true := by
      simp [wellFormed] at hwf
      exact hwf.1
    rcases r0 with _ | q | pts
    · simp [isRing] at hr0
    · simp [isRing] at hr0
    rw [isRing] at hr0
    rcases pts with _ | ⟨p, ps⟩
    · exact ⟨Or.inl ⟨CoordVal.nul, by simp [compute_centroid, pyIndex, truthy]⟩,
        fun _ _ _ => by simp [compute_centroid, pyIndex, truthy]⟩
    · obtain ⟨sx, hsx⟩ := sumAt_ok (p :: ps) 0 hr0 (by omega)
      obtain ⟨sy, hsy⟩ := sumAt_ok (p :: ps) 1 hr0 (by omega)
      refine ⟨Or.inl ⟨CoordVal.arr [CoordVal.num (sx / ((p :: ps).length : ℚ)),
        CoordVal.num (sy / ((p :: ps).length : ℚ))], ?_⟩, ?_⟩
      · simp [compute_centroid, pyIndex, pyIter, truthy, hsx, hsy]
      · intro _ rest h
        simp at h
  by_cases h3 : s = "MultiPolygon"
  · subst h3
    refine ⟨?_, fun h => absurd (Option.some.inj h) (by decide)⟩
    rcases c with _ | q | polys
    · simp [wellFormed] at hwf
    · simp [wellFormed] at hwf
    rcases polys with _ | ⟨p0, ps⟩
    · exact Or.inl ⟨CoordVal.nul, by simp [compute_centroid, truthy]⟩
    have hp0 : wellFormed.isRing' p0 = true := by
      simp [wellFormed] at hwf
      exact hwf.1
    rcases p0 with _ | q | rings
    · simp [wellFormed.isRing'] at hp0
    · simp [wellFormed.isRing'] at hp0
    rcases rings with _ | ⟨r0, rs⟩
    · exact Or.inl ⟨CoordVal.nul, by simp [compute_centroid, truthy, pyIndex]⟩
    have hr0 : isRing r0 = true := by
      simp [wellFormed.isRing'] at hp0
      exact hp0.1
    rcases r0 with _ | q | pts
    · simp [isRing] at hr0
    · simp [isRing] at hr0
    rw [isRing] at hr0
    rcases pts with _ | ⟨p, qs⟩
    · exact Or.inl ⟨CoordVal.nul, by simp [compute_centroid, truthy, pyIndex]⟩
    obtain ⟨sx, hsx⟩ := sumAt_ok (p :: qs) 0 hr0 (by omega)
    obtain ⟨sy, hsy⟩ := sumAt_ok (p :: qs) 1 hr0 (by omega)
    exact Or.inl ⟨CoordVal.arr [CoordVal.num (sx / ((p :: qs).length : ℚ)),
      CoordVal.num (sy / ((p :: qs).length : ℚ))],
      by simp [compute_centroid, truthy, pyIndex, pyIter, hsx, hsy]⟩
  by_cases h4 : s = "LineString"
  · subst h4
    refine ⟨?_, fun h => absurd (Option.some.inj h) (by decide)⟩
    have hc : isRing c = true := by simpa [wellFormed] using hwf
    rcases c with _ | q | pts
    · simp [isRing] at hc
    · simp [isRing] at hc
    rcases pts with _ | ⟨p, ps⟩
    · exact Or.inl ⟨CoordVal.nul, by simp [compute_centroid, truthy]⟩
    have hidx : (ps.length + 1) / 2 < ps.length + 1 :=
      Nat.div_lt_self (by omega) (by omega)
    obtain ⟨v, hv⟩ : ∃ v, (p :: ps)[(ps.length + 1) / 2]? = some v :=
      ⟨_, List.getElem?_eq_getElem (by simpa using hidx)⟩
    exact Or.inl ⟨v, by simp [compute_centroid, truthy, pyLen, pyIndex, hv]⟩
  by_cases h5 : s = "MultiLineString"
  · subst h5
    refine ⟨?_, fun h => absurd (Option.some.inj h) (by decide)⟩
    rcases c with _ | q | lines
    · simp [wellFormed] at hwf
    · simp [wellFormed] at hwf
    rcases lines with _ | ⟨l0, ls⟩
    · exact Or.inl ⟨CoordVal.nul, by simp [compute_centroid, truthy]⟩
    have hl0 : isRing l0 = true := by
      simp [wellFormed] at hwf
      exact hwf.1
    rcases l0 with _ | q | pts
    · simp [isRing] at hl0
    · simp [isRing] at hl0
    rcases pts with _ | ⟨p, ps⟩
    · exact Or.inl ⟨CoordVal.nul, by simp [compute_centroid, truthy, pyIndex]⟩
    have hidx : (ps.length + 1) / 2 < ps.length + 1 :=
      Nat.div_lt_self (by omega) (by omega)
    obtain ⟨v, hv⟩ : ∃ v, (p :: ps)[(ps.length + 1) / 2]? = some v :=
      ⟨_, List.getElem?_eq_getElem (by simpa using hidx)⟩
    exact Or.inl ⟨v, by simp [compute_centroid, truthy, pyIndex, pyLen, hv]⟩
  · refine ⟨Or.inl ⟨CoordVal.nul, ?_⟩, fun h => absurd (Option.some.inj h) h2⟩
    simp [compute_centroid, h1, h2, h3, h4, h5]

theorem compute_centroid_never_raises_witness :
    wellFormed ⟨some "Polygon", CoordVal.arr [CoordVal.arr []]⟩ = true ∧
    compute_centroid ⟨some "Polygon", CoordVal.arr [CoordVal.arr []]⟩ =
      Except.ok CoordVal.nul :=
  ⟨rfl, (compute_centroid_never_raises ⟨some "Polygon", CoordVal.arr [CoordVal.arr []]⟩
    rfl).2 rfl [] rfl⟩

/-!
## Merge engine (`merge_geojson`, extract_mozambique_osm.py lines 70-114)

A feature, as the merge engine reads it: `properties.get("osm_id")` and
`properties.get("osm_type")` form the identity key; everything else the merge
never inspects and is abstracted into an opaque `body` tag (the whole feature,
geometry and remaining properties included, is stored and replaced wholesale).
-/

structure Feature where
  osm_id : Option ℤ
  osm_type : Option String
  body : ℕ
deriving DecidableEq, Repr

/-- The composite identity key `(osm_id, osm_type)`; `none` components model
absent or null properties (`dict.get` yields Python `None`). -/
abbrev Key := Option ℤ × Option String

def keyOf (f : Feature) : Key := (f.osm_id, f.osm_type)

/-- A Python dict as an association list in insertion order. -/
abbrev Index := List (Key × Feature)

/-- Python `feature_index[key] = f`: replace the entry in place if the key is
present, append at the end otherwise. -/
def upsert (d : Index) (f : Feature) : Index :=
  match d with
  | [] => [(keyOf f, f)]
  | (k, g) :: rest =>
    if k = keyOf f then (k, f) :: rest else (k, g) :: upsert rest f

/-- The loop `for f in existing["features"]: feature_index[key] = f`. -/
def buildIndex (fs : List Feature) : Index := fs.foldl upsert []

/-- A feature collection, reduced to its feature list.  The `metadata` object
the Python code attaches (source, extraction timestamp, description) carries
no feature data and is regenerated on every merge, so it is not modelled. -/
structure FeatureCollection where
  features : List Feature
deriving DecidableEq, Repr

/-- Embedding of `merge_geojson`: `none` for the Python-falsy `existing`
(absent file); otherwise index the existing features, upsert each incoming
feature, and return the dict's values in order. -/
def merge_geojson : Option FeatureCollection → List Feature → FeatureCollection
  | none, new_features => ⟨new_features⟩
  | some existing, new_features =>
    ⟨(new_features.foldl upsert (buildIndex existing.features)).map Prod.snd⟩

def keysOf (d : Index) : List Key := d.map Prod.fst

/-- First-match lookup in an association list (the dict's lookup; indices
built by `upsert` have at most one entry per key). -/
def getVal (d : Index) (k : Key) : Option Feature :=
  match d with
  | [] => none
  | (k', v) :: rest => if k' = k then some v else getVal rest k

/-- The last feature of the list carrying the given key, if any. -/
def lastKey (fs : List Feature) (k : Key) : Option Feature :=
  match fs with
  | [] => none
  | f :: rest =>
    match lastKey rest k with
    | some g => some g
    | none => if keyOf f = k then some f else none

theorem getVal_upsert (d : Index) (f : Feature) (k : Key) :
    getVal (upsert d f) k = if k = keyOf f then some f else getVal d k := by
  induction d with
  | nil =>
    by_cases h : k = keyOf f
    · subst h
      simp [upsert, getVal]
    · have h' : ¬ (keyOf f = k) := fun e => h e.symm
      simp [upsert, getVal, h, h']
  | cons p rest ih =>
    obtain ⟨k', v⟩ := p
    by_cases h : k' = keyOf f
    · subst h
      by_cases h' : keyOf f = k
      · subst h'
        simp [upsert, getVal]
      · have h'' : ¬ (k = keyOf f) := fun e => h' e.symm
        simp [upsert, getVal, h', h'']
    · by_cases h' : k' = k
      · subst h'
        simp [upsert, getVal, h]
      · simp [upsert, getVal, h, h', ih]

theorem getVal_foldl (fs : List Feature) (d : Index) (k : Key) :
    getVal (fs.foldl upsert d) k = (lastKey fs k <|> getVal d k) := by
  induction fs generalizing d with
  | nil => simp [lastKey]
  | cons f rest ih =>
    rw [List.foldl_cons, ih]
    cases hrk : lastKey rest k with
    | some g => simp [lastKey, hrk]
    | none =>
      by_cases h : k = keyOf f
      · subst h
        simp [lastKey, hrk, getVal_upsert]
      · have h' : ¬ (keyOf f = k) := fun e => h e.symm
        simp [lastKey, hrk, getVal_upsert, h, h']

theorem keysOf_upsert (d : Index) (f : Feature) :
    keysOf (upsert d f) =
      if keyOf f ∈ keysOf d then keysOf d else keysOf d ++ [keyOf f] := by
  induction d with
  | nil => simp [upsert, keysOf]
  | cons p rest ih =>
    obtain ⟨k', v⟩ := p
    by_cases h : k' = keyOf f
    · subst h
      simp [upsert, keysOf]
    · have h' : ¬ (keyOf f = k') := fun e => h e.symm
      have hL : keysOf (upsert ((k', v) :: rest) f) = k' :: keysOf (upsert rest f) := by
        simp [upsert, keysOf, h]
      have hmem : (keyOf f ∈ keysOf ((k', v) :: rest)) ↔ (keyOf f ∈ keysOf rest) := by
        simp [keysOf, h']
      by_cases hm : keyOf f ∈ keysOf rest
      · rw [hL, if_pos (hmem.mpr hm), ih, if_pos hm]
        rfl
      · rw [hL, if_neg (fun hx => hm (hmem.mp hx)), ih, if_neg hm]
        rfl

theorem mem_keysOf_upsert (d : Index) (f : Feature) (k : Key) :
    k ∈ keysOf (upsert d f) ↔ k ∈ keysOf d ∨ k = keyOf f := by
  rw [keysOf_upsert]
  by_cases hm : keyOf f ∈ keysOf d
  · rw [if_pos hm]
    exact ⟨Or.inl, fun h => h.elim id (fun e => e ▸ hm)⟩
  · rw [if_neg hm]
    simp

theorem nodup_keysOf_upsert (d : Index) (f : Feature) (h : (keysOf d).Nodup) :
    (keysOf (upsert d f)).Nodup := by
  rw [keysOf_upsert]
  by_cases hm : keyOf f ∈ keysOf d
  · rw [if_pos hm]; exact h
  · rw [if_neg hm]
    exact h.append (List.nodup_singleton _)
      (fun a ha hb => by simp at hb; subst hb; exact hm ha)

theorem keysOf_foldl_eq (fs : List Feature) (d : Index)
    (h : ∀ f ∈ fs, keyOf f ∈ keysOf d) : keysOf (fs.foldl upsert d) = keysOf d := by
  induction fs generalizing d with
  | nil => rfl
  | cons f rest ih =>
    rw [List.foldl_cons]
    have h0 : keyOf f ∈ keysOf d := h f (by simp)
    have hkeep : keysOf (upsert d f) = keysOf d := by
      rw [keysOf_upsert, if_pos h0]
    rw [ih (upsert d f)
      (fun g hg => by rw [hkeep]; exact h g (List.mem_cons_of_mem _ hg)), hkeep]

theorem mem_keysOf_foldl_mono (fs : List Feature) (d : Index) (k : Key)
    (h : k ∈ keysOf d) : k ∈ keysOf (fs.foldl upsert d) := by
  induction fs generalizing d with
  | nil => exact h
  | cons f rest ih =>
    exact ih (upsert d f) ((mem_keysOf_upsert d f k).mpr (Or.inl h))

theorem mem_keysOf_foldl_self (fs : List Feature) (d : Index) (f : Feature)
    (h : f ∈ fs) : keyOf f ∈ keysOf (fs.foldl upsert d) := by
  induction fs generalizing d with
  | nil => cases h
  | cons g rest ih =>
    rcases List.mem_cons.mp h with rfl | h'
    · exact mem_keysOf_foldl_mono rest (upsert d f)
        _ ((mem_keysOf_upsert d f _).mpr (Or.inr rfl))
    · exact ih (upsert d g) h' 

theorem nodup_keysOf_foldl (fs : List Feature) (d : Index)
    (h : (keysOf d).Nodup) : (keysOf (fs.foldl upsert d)).Nodup := by
  induction fs generalizing d with
  | nil => exact h
  | cons f rest ih => exact ih (upsert d f) (nodup_keysOf_upsert d f h)

/-- Every entry's stored key matches its feature's key — the invariant the
dict assignments `feature_index[key] = f` maintain. -/
def coherent (d : Index) : Prop := ∀ p ∈ d, keyOf p.2 = p.1

theorem coherent_upsert (d : Index) (f : Feature) (h : coherent d) :
    coherent (upsert d f) := by
  induction d with
  | nil =>
    intro p hp
    simp [upsert] at hp
    subst hp
    rfl
  | cons q rest ih =>
    obtain ⟨k', v⟩ := q
    intro p hp
    by_cases hk : k' = keyOf f
    · subst hk
      simp [upsert] at hp
      rcases hp with rfl | hp
      · rfl
      · exact h p (List.mem_cons_of_mem _ hp)
    · simp [upsert, hk] at hp
      rcases hp with rfl | hp
      · exact h (k', v) (by simp)
      · exact ih (fun q hq => h q (List.mem_cons_of_mem _ hq)) p hp

theorem coherent_foldl (fs : List Feature) (d : Index) (h : coherent d) :
    coherent (fs.foldl upsert d) := by
  induction fs generalizing d with
  | nil => exact h
  | cons f rest ih => exact ih (upsert d f) (coherent_upsert d f h)

theorem coherent_buildIndex (fs : List Feature) : coherent (buildIndex fs) :=
  coherent_foldl fs [] (fun p hp => by cases hp)

theorem nodup_keysOf_buildIndex (fs : List Feature) :
    (keysOf (buildIndex fs)).Nodup :=
  nodup_keysOf_foldl fs [] (by simp [keysOf])

theorem getVal_eq_none (d : Index) (k : Key) (h : k ∉ keysOf d) :
    getVal d k = none := by
  induction d with
  | nil => rfl
  | cons p rest ih =>
    obtain ⟨k', v⟩ := p
    simp only [keysOf, List.map_cons, List.mem_cons, not_or] at h
    have h1 : ¬ (k' = k) := fun e => h.1 e.symm
    simp only [getVal, if_neg h1]
    exact ih (by simpa [keysOf] using h.2)

theorem getVal_some_mem (d : Index) (k : Key) (f : Feature)
    (h : getVal d k = some f) : (k, f) ∈ d := by
  induction d with
  | nil => cases h
  | cons p rest ih =>
    obtain ⟨k', v⟩ := p
    by_cases hk : k' = k
    · subst hk
      simp only [getVal, if_pos rfl] at h
      obtain rfl := Option.some.inj h
      exact List.mem_cons_self _ _
    · simp only [getVal, if_neg hk] at h
      exact List.mem_cons_of_mem _ (ih h)

theorem index_ext (d1 : Index) (d2 : Index) (hk : keysOf d1 = keysOf d2)
    (hn : (keysOf d1).Nodup) (hv : ∀ k, getVal d1 k = getVal d2 k) : d1 = d2 := by
  induction d1 generalizing d2 with
  | nil =>
    cases d2 with
    | nil => rfl
    | cons p r => simp [keysOf] at hk
  | cons p r ih =>
    cases d2 with
    | nil => simp [keysOf] at hk
    | cons q s =>
      obtain ⟨k1, v1⟩ := p
      obtain ⟨k2, v2⟩ := q
      simp only [keysOf, List.map_cons, List.cons.injEq] at hk
      obtain ⟨rfl, hks⟩ := hk
      simp only [keysOf, List.map_cons, List.nodup_cons] at hn
      have hvv : v1 = v2 := by
        have h0 := hv k1
        simpa [getVal] using h0
      subst hvv
      have hrs : r = s := by
        apply ih
        · exact hks
        · exact hn.2
        · intro k
          by_cases hk1 : k = k1
          · have hns : k1 ∉ keysOf s := by
              simp only [keysOf, ← hks]
              exact hn.1
            rw [hk1, getVal_eq_none r k1 hn.1, getVal_eq_none s k1 hns]
          · have h0 := hv k
            have hne : ¬ (k1 = k) := fun e => hk1 e.symm
            simpa [getVal, if_neg hne] using h0
      rw [hrs]

theorem upsert_fresh (d : Index) (f : Feature) (h : keyOf f ∉ keysOf d) :
    upsert d f = d ++ [(keyOf f, f)] := by
  induction d with
  | nil => rfl
  | cons p rest ih =>
    obtain ⟨k', v⟩ := p
    simp only [keysOf, List.map_cons, List.mem_cons, not_or] at h
    have h1 : ¬ (k' = keyOf f) := fun e => h.1 e.symm
    simp only [upsert, if_neg h1, List.cons_append, List.cons.injEq, true_and]
    exact ih (by simpa [keysOf] using h.2)

theorem keysOf_append (d1 d2 : Index) :
    keysOf (d1 ++ d2) = keysOf d1 ++ keysOf d2 :=
  List.map_append _ _ _

theorem foldl_fresh (fs : List Feature) (d : Index)
    (hd : ∀ f ∈ fs, keyOf f ∉ keysOf d) (hn : (fs.map keyOf).Nodup) :
    fs.foldl upsert d = d ++ fs.map (fun f => (keyOf f, f)) := by
  induction fs generalizing d with
  | nil => simp
  | cons f rest ih =>
    simp only [List.map_cons, List.nodup_cons] at hn
    rw [List.foldl_cons, upsert_fresh d f (hd f (List.mem_cons_self _ _))]
    rw [ih (d ++ [(keyOf f, f)]) ?fresh hn.2]
    · simp
    case fresh =>
      intro g hg
      have h1 : keyOf g ∉ keysOf d := hd g (List.mem_cons_of_mem _ hg)
      have h2 : keyOf g ≠ keyOf f := by
        intro e
        exact hn.1 (e ▸ List.mem_map_of_mem keyOf hg)
      rw [keysOf_append]
      intro hmem
      rcases List.mem_append.mp hmem with hx | hx
      · exact h1 hx
      · simp [keysOf] at hx
        exact h2 hx

theorem map_key_pair_of_coherent (d : Index) (hc : coherent d) :
    (d.map Prod.snd).map (fun f => (keyOf f, f)) = d := by
  induction d with
  | nil => rfl
  | cons p rest ih =>
    obtain ⟨k', v⟩ := p
    have hv : keyOf v = k' := hc (k', v) (List.mem_cons_self _ _)
    simp only [List.map_cons, hv, List.cons.injEq, true_and]
    exact ih (fun q hq => hc q (List.mem_cons_of_mem _ hq))

theorem map_keyOf_snd_of_coherent (d : Index) (hc : coherent d) :
    (d.map Prod.snd).map keyOf = keysOf d := by
  induction d with
  | nil => rfl
  | cons p rest ih =>
    obtain ⟨k', v⟩ := p
    have hv : keyOf v = k' := hc (k', v) (List.mem_cons_self _ _)
    simp only [List.map_cons, hv, keysOf, List.cons.injEq, true_and]
    exact ih (fun q hq => hc q (List.mem_cons_of_mem _ hq))

theorem buildIndex_values (d : Index) (hc : coherent d)
    (hn : (keysOf d).Nodup) : buildIndex (d.map Prod.snd) = d := by
  rw [buildIndex, foldl_fresh (d.map Prod.snd) []
    (fun f _ => by simp [keysOf])
    (by rw [map_keyOf_snd_of_coherent d hc]; exact hn)]
  rw [List.nil_append]
  exact map_key_pair_of_coherent d hc

theorem lastKey_eq_none (fs : List Feature) (k : Key) (h : k ∉ fs.map keyOf) :
    lastKey fs k = none := by
  induction fs with
  | nil => rfl
  | cons f rest ih =>
    simp only [List.map_cons, List.mem_cons, not_or] at h
    have h1 : ¬ (keyOf f = k) := fun e => h.1 e.symm
    simp [lastKey, ih h.2, h1]

theorem lastKey_of_nodup (fs : List Feature) (f : Feature)
    (hn : (fs.map keyOf).Nodup) (hf : f ∈ fs) : lastKey fs (keyOf f) = some f := by
  induction fs with
  | nil => cases hf
  | cons g rest ih =>
    simp only [List.map_cons, List.nodup_cons] at hn
    rcases List.mem_cons.mp hf with rfl | hf'
    · simp [lastKey, lastKey_eq_none rest (keyOf f) hn.1]
    · simp [lastKey, ih hn.2 hf']

theorem getVal_map_pair (fs : List Feature) (k : Key)
    (hn : (fs.map keyOf).Nodup) :
    getVal (fs.map (fun f => (keyOf f, f))) k = lastKey fs k := by
  induction fs with
  | nil => rfl
  | cons f rest ih =>
    simp only [List.map_cons, List.nodup_cons] at hn
    by_cases h : keyOf f = k
    · subst h
      simp [getVal, lastKey, lastKey_eq_none rest _ hn.1]
    · cases hl : lastKey rest k <;> simp [getVal, lastKey, h, ih hn.2, hl]

theorem getVal_filter (d : Index) (k : Key) (f : Feature)
    (hn : (keysOf d).Nodup) (h : getVal d k = some f) :
    d.filter (fun p => decide (p.1 = k)) = [(k, f)] := by
  induction d with
  | nil => cases h
  | cons p rest ih =>
    obtain ⟨k', v⟩ := p
    simp only [keysOf, List.map_cons, List.nodup_cons] at hn
    by_cases hk : k' = k
    · subst hk
      simp only [getVal, if_pos rfl] at h
      obtain rfl := Option.some.inj h
      rw [List.filter_cons_of_pos (by simp)]
      have hrest : List.filter (fun p => decide (p.1 = k')) rest = [] := by
        rw [List.filter_eq_nil_iff]
        intro q hq
        simp only [decide_eq_true_eq]
        intro e
        exact hn.1 (e ▸ List.mem_map_of_mem Prod.fst hq)
      rw [hrest]
    · simp only [getVal, if_neg hk] at h
      rw [List.filter_cons_of_neg (by simp [hk]), ih hn.2 h]

theorem filter_map_snd (d : Index) (k : Key) (hc : coherent d) :
    (d.map Prod.snd).filter (fun g => decide (keyOf g = k)) =
      (d.filter (fun p => decide (p.1 = k))).map Prod.snd := by
  induction d with
  | nil => rfl
  | cons p rest ih =>
    obtain ⟨k', v⟩ := p
    have hv : keyOf v = k' := hc (k', v) (List.mem_cons_self _ _)
    have hc' : coherent rest := fun q hq => hc q (List.mem_cons_of_mem _ hq)
    by_cases hk : k' = k
    · subst hk
      rw [List.map_cons, List.filter_cons_of_pos (by simp [hv]),
        List.filter_cons_of_pos (by simp), List.map_cons, ih hc']
    · rw [List.map_cons, List.filter_cons_of_neg (by simp [hv, hk]),
        List.filter_cons_of_neg (by simp [hk]), ih hc']

/-- Re-merging a batch into an index that already reflects it is a no-op. -/
theorem foldl_upsert_stable (B : List Feature) (M : Index)
    (hk : ∀ f ∈ B, keyOf f ∈ keysOf M) (hn : (keysOf M).Nodup)
    (hv : ∀ k g, lastKey B k = some g → getVal M k = some g) :
    B.foldl upsert M = M := by
  apply index_ext
  · exact keysOf_foldl_eq B M hk
  · rw [keysOf_foldl_eq B M hk]
    exact hn
  · intro k
    rw [getVal_foldl]
    cases hl : lastKey B k with
    | some g =>
      rw [hv k g hl]
      rfl
    | none => simp

/-- The merge index over a present baseline: last write per key wins, the
incoming batch writing after the existing features. -/
theorem getVal_merge_index (ex new : List Feature) (k : Key) :
    getVal (new.foldl upsert (buildIndex ex)) k =
      (lastKey new k <|> lastKey ex k) := by
  rw [getVal_foldl, buildIndex, getVal_foldl]
  cases lastKey new k <;> cases lastKey ex k <;> simp [getVal]

/-- Claim C1, counterexample: with a present existing collection, two
incoming features that both lack `osm_id` and `osm_type` share the key
`(None, None)` and deduplicate against each other — the first one is
replaced by the second instead of appearing as its own entry. -/
theorem merge_partial_key_counterexample :
    (merge_geojson (some ⟨[⟨some 1, some "node", 0⟩]⟩)
        [⟨none, none, 1⟩, ⟨none, none, 2⟩]).features =
      [⟨some 1, some "node", 0⟩, ⟨none, none, 2⟩] ∧
    (⟨none, none, 1⟩ : Feature) ∉
      (merge_geojson (some ⟨[⟨some 1, some "node", 0⟩]⟩)
        [⟨none, none, 1⟩, ⟨none, none, 2⟩]).features := by
  exact ⟨rfl, by decide⟩

/-- Claim C1 (amended): identity keys with missing components participate in
deduplication exactly like fully populated ones.  When the existing
collection is present, the merged result holds at most one feature per key —
partial keys included, so features sharing a partial key collapse, last
writer winning; when the existing collection is absent, the incoming batch is
returned verbatim with no deduplication at all. -/
theorem merge_partial_keys_deduplicate (ex : FeatureCollection)
    (new : List Feature) :
    ((merge_geojson (some ex) new).features.map keyOf).Nodup ∧
    (merge_geojson none new).features = new := by
  constructor
  · have hc : coherent (new.foldl upsert (buildIndex ex.features)) :=
      coherent_foldl _ _ (coherent_buildIndex _)
    have hn : (keysOf (new.foldl upsert (buildIndex ex.features))).Nodup :=
      nodup_keysOf_foldl _ _ (nodup_keysOf_buildIndex _)
    show ((new.foldl upsert (buildIndex ex.features)).map Prod.snd |>.map keyOf).Nodup
    rw [map_keyOf_snd_of_coherent _ hc]
    exact hn
  · rfl

/-- Claim C3, counterexample: two existing features may share an identity key
(here the partial key `(None, None)`, which the spec's own collection
invariant allows); indexing then collapses them, so the first is not carried
forward even though the empty incoming batch touches no key. -/
theorem merge_upsert_counterexample :
    (merge_geojson (some ⟨[⟨none, none, 1⟩, ⟨none, none, 2⟩]⟩) []).features =
      [⟨none, none, 2⟩] ∧
    (⟨none, none, 1⟩ : Feature) ∈
      ([⟨none, none, 1⟩, ⟨none, none, 2⟩] : List Feature) ∧
    (⟨none, none, 1⟩ : Feature) ∉
      (merge_geojson (some ⟨[⟨none, none, 1⟩, ⟨none, none, 2⟩]⟩) []).features := by
  exact ⟨rfl, by decide, by decide⟩

/-- Claim C3 (amended): provided the existing collection and the incoming
batch each hold at most one feature per identity key (as the pipeline's own
outputs do), the merge has upsert semantics: an incoming feature whose fully
populated key occurs in the existing collection fully replaces the existing
entry (the result holds exactly one feature with that key — the incoming
record); an incoming feature with a new key is inserted; and every existing
feature whose key is untouched by the batch is carried forward unchanged. -/
theorem merge_upsert_semantics (ex new : List Feature)
    (hex : (ex.map keyOf).Nodup) (hnew : (new.map keyOf).Nodup) :
    (∀ f ∈ new, ∀ i t, keyOf f = (some i, some t) →
      (some i, some t) ∈ ex.map keyOf →
      (merge_geojson (some ⟨ex⟩) new).features.filter
        (fun g => decide (keyOf g = keyOf f)) = [f]) ∧
    (∀ f ∈ new, keyOf f ∉ ex.map keyOf →
      f ∈ (merge_geojson (some ⟨ex⟩) new).features) ∧
    (∀ f ∈ ex, keyOf f ∉ new.map keyOf →
      f ∈ (merge_geojson (some ⟨ex⟩) new).features) := by
  have hc : coherent (new.foldl upsert (buildIndex ex)) :=
    coherent_foldl _ _ (coherent_buildIndex _)
  have hn : (keysOf (new.foldl upsert (buildIndex ex))).Nodup :=
    nodup_keysOf_foldl _ _ (nodup_keysOf_buildIndex _)
  refine ⟨?_, ?_, ?_⟩
  · intro f hf i t hkey hmem
    have hget : getVal (new.foldl upsert (buildIndex ex)) (keyOf f) = some f := by
      rw [getVal_merge_index, lastKey_of_nodup new f hnew hf]
      rfl
    show ((new.foldl upsert (buildIndex ex)).map Prod.snd).filter
      (fun g => decide (keyOf g = keyOf f)) = [f]
    rw [filter_map_snd _ _ hc, getVal_filter _ _ f hn hget]
    rfl
  · intro f hf _
    have hget : getVal (new.foldl upsert (buildIndex ex)) (keyOf f) = some f := by
      rw [getVal_merge_index, lastKey_of_nodup new f hnew hf]
      rfl
    exact List.mem_map_of_mem Prod.snd (getVal_some_mem _ _ _ hget)
  · intro f hf huntouched
    have hget : getVal (new.foldl upsert (buildIndex ex)) (keyOf f) = some f := by
      rw [getVal_merge_index, lastKey_eq_none new (keyOf f) huntouched,
        lastKey_of_nodup ex f hex hf]
      rfl
    exact List.mem_map_of_mem Prod.snd (getVal_some_mem _ _ _ hget)

theorem merge_upsert_semantics_witness :
    (merge_geojson (some ⟨[⟨some 5, some "way", 1⟩, ⟨some 6, some "node", 7⟩]⟩)
      [⟨some 5, some "way", 2⟩]).features.filter
        (fun g => decide (keyOf g = keyOf (⟨some 5, some "way", 2⟩ : Feature))) =
      [⟨some 5, some "way", 2⟩] ∧
    (⟨some 6, some "node", 7⟩ : Feature) ∈
      (merge_geojson (some ⟨[⟨some 5, some "way", 1⟩, ⟨some 6, some "node", 7⟩]⟩)
        [⟨some 5, some "way", 2⟩]).features := by
  constructor
  · exact (merge_upsert_semantics
      [⟨some 5, some "way", 1⟩, ⟨some 6, some "node", 7⟩]
      [⟨some 5, some "way", 2⟩] (by decide) (by decide)).1
      ⟨some 5, some "way", 2⟩ (by decide) 5 "way" rfl (by decide)
  · exact (merge_upsert_semantics
      [⟨some 5, some "way", 1⟩, ⟨some 6, some "node", 7⟩]
      [⟨some 5, some "way", 2⟩] (by decide) (by decide)).2.2
      ⟨some 6, some "node", 7⟩ (by decide) (by decide)

theorem keysOf_map_pair (fs : List Feature) :
    keysOf (fs.map (fun f => (keyOf f, f))) = fs.map keyOf := by
  simp [keysOf, List.map_map]

theorem map_snd_map_pair (fs : List Feature) :
    (fs.map (fun f => (keyOf f, f))).map Prod.snd = fs := by
  induction fs with
  | nil => rfl
  | cons f rest ih => simp [ih]

/-- Claim C4, counterexample: with an absent baseline, `merge_geojson`
returns the batch verbatim (no deduplication), so a batch with an internal
key collision is collapsed only on the second merge — the nested merge
differs from the single one. -/
theorem merge_idempotence_counterexample :
    merge_geojson (some (merge_geojson none [⟨none, none, 1⟩, ⟨none, none, 2⟩]))
        [⟨none, none, 1⟩, ⟨none, none, 2⟩] ≠
      merge_geojson none [⟨none, none, 1⟩, ⟨none, none, 2⟩] := by
  decide

/-- Claim C4 (amended): `merge(merge(A, B), B) = merge(A, B)` whenever the
baseline `A` is present; with an absent baseline it additionally requires the
batch `B` to hold at most one feature per identity key (an absent baseline
returns `B` verbatim, so an internal key collision in `B` survives the first
merge but not the second). -/
theorem merge_idempotent (A : Option FeatureCollection) (B : List Feature)
    (h : A.isSome = true ∨ (B.map keyOf).Nodup) :
    merge_geojson (some (merge_geojson A B)) B = merge_geojson A B := by
  rcases A with _ | ex
  · have hB : (B.map keyOf).Nodup := by
      rcases h with h | h
      · cases h
      · exact h
    show merge_geojson (some ⟨B⟩) B = ⟨B⟩
    have hb : buildIndex B = B.map (fun f => (keyOf f, f)) := by
      rw [buildIndex, foldl_fresh B [] (fun f _ => by simp [keysOf]) hB]
      rfl
    have hstable : B.foldl upsert (buildIndex B) = buildIndex B := by
      apply foldl_upsert_stable
      · intro f hf
        rw [hb, keysOf_map_pair]
        exact List.mem_map_of_mem keyOf hf
      · rw [hb, keysOf_map_pair]
        exact hB
      · intro k g hg
        rw [hb, getVal_map_pair B k hB]
        exact hg
    show FeatureCollection.mk ((B.foldl upsert (buildIndex B)).map Prod.snd) = ⟨B⟩
    rw [hstable, hb, map_snd_map_pair]
  · set M : Index := B.foldl upsert (buildIndex ex.features) with hM
    have hc : coherent M := coherent_foldl _ _ (coherent_buildIndex _)
    have hn : (keysOf M).Nodup := nodup_keysOf_foldl _ _ (nodup_keysOf_buildIndex _)
    show FeatureCollection.mk
      ((B.foldl upsert (buildIndex (M.map Prod.snd))).map Prod.snd) =
      ⟨M.map Prod.snd⟩
    rw [buildIndex_values M hc hn]
    have hstable : B.foldl upsert M = M := by
      apply foldl_upsert_stable
      · intro f hf
        exact mem_keysOf_foldl_self B (buildIndex ex.features) f hf
      · exact hn
      · intro k g hg
        rw [hM, getVal_merge_index, hg]
        rfl
    rw [hstable]

theorem merge_idempotent_witness :
    merge_geojson
        (some (merge_geojson (some ⟨[⟨some 1, some "way", 0⟩]⟩)
          [⟨some 1, some "way", 5⟩, ⟨some 2, some "node", 6⟩]))
        [⟨some 1, some "way", 5⟩, ⟨some 2, some "node", 6⟩] =
      merge_geojson (some ⟨[⟨some 1, some "way", 0⟩]⟩)
        [⟨some 1, some "way", 5⟩, ⟨some 2, some "node", 6⟩] :=
  merge_idempotent (some ⟨[⟨some 1, some "way", 0⟩]⟩)
    [⟨some 1, some "way", 5⟩, ⟨some 2, some "node", 6⟩] (Or.inl rfl)

/-- Claim C6, counterexample: a collection holding two features with the same
(partial) identity key — which the spec's collection invariant allows — is
not reproduced by a zero-feature merge: indexing collapses the two features
into one. -/
theorem merge_roundtrip_counterexample :
    (⟨[⟨none, none, 1⟩, ⟨none, none, 2⟩]⟩ : FeatureCollection).features.length = 2 ∧
    (merge_geojson (some ⟨[⟨none, none, 1⟩, ⟨none, none, 2⟩]⟩) []).features.length = 1 := by
  decide

/-- Claim C6 (amended): a persisted collection whose features carry pairwise
distinct identity keys (true of every collection the merge itself produces)
is reproduced exactly by merging zero new features into it: same features,
same order, hence the same count, keys and properties. -/
theorem merge_zero_features_roundtrip (A : FeatureCollection)
    (h : (A.features.map keyOf).Nodup) : merge_geojson (some A) [] = A := by
  obtain ⟨fs⟩ := A
  have hb : buildIndex fs = fs.map (fun f => (keyOf f, f)) := by
    rw [buildIndex, foldl_fresh fs [] (fun f _ => by simp [keysOf]) h]
    rfl
  show FeatureCollection.mk
    ((([] : List Feature).foldl upsert (buildIndex fs)).map Prod.snd) = ⟨fs⟩
  rw [List.foldl_nil, hb, map_snd_map_pair]

theorem merge_zero_features_roundtrip_witness :
    merge_geojson (some ⟨[⟨some 1, some "way", 0⟩, ⟨some 2, some "node", 1⟩]⟩) [] =
      ⟨[⟨some 1, some "way", 0⟩, ⟨some 2, some "node", 1⟩]⟩ :=
  merge_zero_features_roundtrip ⟨[⟨some 1, some "way", 0⟩, ⟨some 2, some "node", 1⟩]⟩
    (by decide)

/-- A coordinate pair `[pt["lon"], pt["lat"]]` as built by the way branch of
`osm_to_geojson_with_timestamps`. -/
def posOf (p : ℚ × ℚ) : CoordVal := .arr [.num p.1, .num p.2]

/-- The way-classification branch of `osm_to_geojson_with_timestamps`
(extract_mozambique_osm.py lines 215-228): from the explicit vertex list,
`coords[0] == coords[-1] and len(coords) > 3` decides `Polygon` (single
outer ring) versus `LineString`; an empty vertex list makes `coords[0]`
raise `IndexError`. -/
def way_geometry (pts : List (ℚ × ℚ)) : Except PyErr Geometry :=
  match pts with
  | [] => .error .indexError
  | p :: rest =>
    if p = (p :: rest).getLast (List.cons_ne_nil p rest) ∧ (p :: rest).length > 3 then
      .ok ⟨some "Polygon", .arr [.arr ((p :: rest).map posOf)]⟩
    else
      .ok ⟨some "LineString", .arr ((p :: rest).map posOf)⟩

/-- Claim C5, counterexample: on an empty vertex list the classifier raises
`IndexError` rather than classifying the way as a `LineString`. -/
theorem way_geometry_empty_raises :
    way_geometry [] = Except.error PyErr.indexError ∧
    way_geometry [] ≠ Except.ok ⟨some "LineString", CoordVal.arr []⟩ :=
  ⟨rfl, fun h => nomatch h⟩

/-- Claim C5 (amended): for every NON-EMPTY vertex list, the way is
classified as a `Polygon` whose single outer ring is the vertex list exactly
when the first vertex equals the last and the vertex count exceeds 3, and as
a `LineString` with the same vertex list otherwise (so a 4-vertex closed path
is a `Polygon` and a 3-vertex closed path is a `LineString`); an empty vertex
list raises `IndexError` instead. -/
theorem way_classification (p : ℚ × ℚ) (rest : List (ℚ × ℚ)) :
    (way_geometry (p :: rest) =
        Except.ok ⟨some "Polygon", CoordVal.arr [CoordVal.arr ((p :: rest).map posOf)]⟩ ↔
      (p = (p :: rest).getLast (List.cons_ne_nil p rest) ∧ (p :: rest).length > 3)) ∧
    (¬(p = (p :: rest).getLast (List.cons_ne_nil p rest) ∧ (p :: rest).length > 3) →
      way_geometry (p :: rest) =
        Except.ok ⟨some "LineString", CoordVal.arr ((p :: rest).map posOf)⟩) := by
  constructor
  · constructor
    · intro h
      by_contra hc
      rw [way_geometry, if_neg hc] at h
      have ht := congrArg
        (fun r => match r with | Except.ok g => g.type | Except.error _ => none) h
      dsimp only at ht
      exact absurd ht (by decide)
    · intro h
      rw [way_geometry, if_pos h]
  · intro h
    rw [way_geometry, if_neg h]

theorem way_classification_witness :
    way_geometry [(0, 0), (1, 0), (1, 1), (0, 0)] =
      Except.ok ⟨some "Polygon",
        CoordVal.arr [CoordVal.arr ([((0 : ℚ), (0 : ℚ)), (1, 0), (1, 1), (0, 0)].map posOf)]⟩ ∧
    way_geometry [(0, 0), (1, 0), (0, 0)] =
      Except.ok ⟨some "LineString",
        CoordVal.arr ([((0 : ℚ), (0 : ℚ)), (1, 0), (0, 0)].map posOf)⟩ :=
  ⟨(way_classification (0, 0) [(1, 0), (1, 1), (0, 0)]).1.mpr (by decide),
   (way_classification (0, 0) [(1, 0), (0, 0)]).2 (by decide)⟩

/-!
## Retry loop of `query_osm_with_metadata` (lines 154-177)

The transport (`requests.post` + `raise_for_status`) is abstracted as a
function from the attempt index to its outcome; the response payload is an
opaque tag.  Sleeps only delay, so they are not modelled.
-/

inductive Outcome where
  | success (v : ℕ)
  | timeout
  | httpError (status : ℕ)
  | otherError
deriving DecidableEq, Repr

inductive QResult where
  | success (v : ℕ)
  | timeoutRaised
  | httpRaised (status : ℕ)
  | otherRaised
  | fellThrough
deriving DecidableEq, Repr

def max_retries : ℕ := 3

/-- The `for attempt in range(max_retries)` loop body, recursing on the
remaining iterations; returns how many transport calls were made and how the
loop ended (`fellThrough` models running off the end of the loop, which
Python answers with `None`). -/
def runAttempts (transport : ℕ → Outcome) : ℕ → ℕ → ℕ × QResult
  | _, 0 => (0, .fellThrough)
  | attempt, remaining + 1 =>
    match transport attempt with
    | .success v => (1, .success v)
    | .timeout =>
      if attempt < max_retries - 1 then
        let r := runAttempts transport (attempt + 1) remaining
        (r.1 + 1, r.2)
      else (1, .timeoutRaised)
    | .httpError s =>
      if s = 429 ∨ 500 ≤ s then
        if attempt < max_retries - 1 then
          let r := runAttempts transport (attempt + 1) remaining
          (r.1 + 1, r.2)
        else (1, .httpRaised s)
      else (1, .httpRaised s)
    | .otherError => (1, .otherRaised)

/-- `query_osm_with_metadata`'s transport behaviour: run the retry loop from
attempt 0 with the full budget. -/
def query_osm_with_metadata (transport : ℕ → Outcome) : ℕ × QResult :=
  runAttempts transport 0 max_retries

/-- An outcome the loop retries after: a timeout, or an HTTP error with a
rate-limited (429) or server-fault (>= 500) status. -/
def retryableOutcome (o : Outcome) : Prop :=
  o = .timeout ∨ ∃ s, o = .httpError s ∧ (s = 429 ∨ 500 ≤ s)

/-- Claim C7: when every attempt times out, exactly `max_retries` (3)
transport calls are made and the triggering timeout is re-raised; a success
at any attempt (the final allowed one included) is returned immediately with
no further calls; and a non-retryable transport error — an HTTP status other
than 429/5xx, or any other transport fault — fails immediately without
retry. -/
theorem retry_budget (t : ℕ → Outcome) :
    ((∀ a, a < 3 → t a = Outcome.timeout) →
      query_osm_with_metadata t = (3, QResult.timeoutRaised)) ∧
    (∀ k v, k < 3 → (∀ a, a < k → retryableOutcome (t a)) →
      t k = Outcome.success v →
      query_osm_with_metadata t = (k + 1, QResult.success v)) ∧
    (∀ k s, k < 3 → (∀ a, a < k → retryableOutcome (t a)) →
      t k = Outcome.httpError s → ¬(s = 429 ∨ 500 ≤ s) →
      query_osm_with_metadata t = (k + 1, QResult.httpRaised s)) ∧
    (∀ k, k < 3 → (∀ a, a < k → retryableOutcome (t a)) →
      t k = Outcome.otherError →
      query_osm_with_metadata t = (k + 1, QResult.otherRaised)) := by
  refine ⟨?_, ?_, ?_, ?_⟩
  · intro h
    have h0 := h 0 (by omega)
    have h1 := h 1 (by omega)
    have h2 := h 2 (by omega)
    simp [query_osm_with_metadata, runAttempts, max_retries, h0, h1, h2]
  · intro k v hk hr hs
    interval_cases k
    · simp [query_osm_with_metadata, runAttempts, max_retries, hs]
    · rcases hr 0 (by omega) with h0 | ⟨s0, h0, hr0⟩ <;>
        simp [query_osm_with_metadata, runAttempts, max_retries, hs, h0, *]
    · rcases hr 0 (by omega) with h0 | ⟨s0, h0, hr0⟩ <;>
        rcases hr 1 (by omega) with h1 | ⟨s1, h1, hr1⟩ <;>
        simp [query_osm_with_metadata, runAttempts, max_retries, hs, h0, h1, *]
  · intro k s hk hr hs hbad
    interval_cases k
    · simp [query_osm_with_metadata, runAttempts, max_retries, hs, hbad]
    · rcases hr 0 (by omega) with h0 | ⟨s0, h0, hr0⟩ <;>
        simp [query_osm_with_metadata, runAttempts, max_retries, hs, hbad, h0, *]
    · rcases hr 0 (by omega) with h0 | ⟨s0, h0, hr0⟩ <;>
        rcases hr 1 (by omega) with h1 | ⟨s1, h1, hr1⟩ <;>
        simp [query_osm_with_metadata, runAttempts, max_retries, hs, hbad, h0, h1, *]
  · intro k hk hr hs
    interval_cases k
    · simp [query_osm_with_metadata, runAttempts, max_retries, hs]
    · rcases hr 0 (by omega) with h0 | ⟨s0, h0, hr0⟩ <;>
        simp [query_osm_with_metadata, runAttempts, max_retries, hs, h0, *]
    · rcases hr 0 (by omega) with h0 | ⟨s0, h0, hr0⟩ <;>
        rcases hr 1 (by omega) with h1 | ⟨s1, h1, hr1⟩ <;>
        simp [query_osm_with_metadata, runAttempts, max_retries, hs, h0, h1, *]

theorem retry_budget_witness :
    query_osm_with_metadata (fun _ => Outcome.timeout) = (3, QResult.timeoutRaised) ∧
    query_osm_with_metadata
        (fun a => if a < 2 then Outcome.timeout else Outcome.success 7) =
      (3, QResult.success 7) ∧
    query_osm_with_metadata
        (fun a => if a = 0 then Outcome.httpError 404 else Outcome.success 7) =
      (1, QResult.httpRaised 404) := by
  refine ⟨?_, ?_, ?_⟩
  · exact (retry_budget (fun _ => Outcome.timeout)).1 (fun a _ => rfl)
  · exact (retry_budget (fun a => if a < 2 then Outcome.timeout else Outcome.success 7)).2.1
      2 7 (by omega) (fun a ha => Or.inl (by simp [ha])) (by simp)
  · exact (retry_budget (fun a => if a = 0 then Outcome.httpError 404 else Outcome.success 7)).2.2.1
      0 404 (by omega) (fun a ha => absurd ha (by omega)) (by simp) (by omega)

/-!
## State store and fetch-window decision (lines 42-50, 319-343)
-/

/-- What the state file on disk may hold: absent, unparsable, or a valid
JSON document with optional `last_update` / `feature_count` entries. -/
inductive StateFileContent where
  | absent
  | corrupt
  | valid (last_update : Option String) (feature_count : Option ℤ)
deriving DecidableEq, Repr

/-- The loaded state dict, read through `state.get(...)`: both fields are
`None` when the dict is empty. -/
structure SyncState where
  last_update : Option String
  feature_count : Option ℤ
deriving DecidableEq, Repr

/-- `load_state`: a missing file skips the read, and `JSONDecodeError` /
`IOError` are caught and ignored; both paths fall through to `return ` and
the empty dict — loading never raises. -/
def load_state : StateFileContent → SyncState
  | .absent => ⟨none, none⟩
  | .corrupt => ⟨none, none⟩
  | .valid lu fc => ⟨lu, fc⟩

def FLOOD_START_DATE : String := "2026-01-21"

/-- The fetch-window decision of `main` for a run without `--full`: with a
recorded `last_update` and a readable existing collection, query
incrementally from the date part of `last_update` and merge into the
existing collection; otherwise fall back to a full refresh from
`FLOOD_START_DATE` with no existing collection. -/
def choose_window (state : SyncState) (existing : Option FeatureCollection) :
    String × Option FeatureCollection :=
  match state.last_update with
  | some lu =>
    match existing with
    | some e => (lu.take 10, some e)
    | none => (FLOOD_START_DATE, none)
  | none => (FLOOD_START_DATE, none)

/-- Claim C8: an absent or unparsable state file loads exactly like no prior
state — `load_state` returns the empty state without raising — and the run
then falls back to a full refresh from `FLOOD_START_DATE` (no incremental
window, no merge baseline), whatever existing output file is present. -/
theorem state_corruption_full_refresh (c : StateFileContent)
    (h : c = StateFileContent.absent ∨ c = StateFileContent.corrupt) :
    load_state c = load_state StateFileContent.absent ∧
    ∀ existing, choose_window (load_state c) existing = (FLOOD_START_DATE, none) := by
  rcases h with rfl | rfl
  · exact ⟨rfl, fun _ => rfl⟩
  · exact ⟨rfl, fun _ => rfl⟩

theorem state_corruption_full_refresh_witness :
    load_state StateFileContent.corrupt = load_state StateFileContent.absent ∧
    choose_window (load_state StateFileContent.corrupt) (some ⟨[]⟩) =
      (FLOOD_START_DATE, none) :=
  ⟨(state_corruption_full_refresh StateFileContent.corrupt (Or.inr rfl)).1,
   (state_corruption_full_refresh StateFileContent.corrupt (Or.inr rfl)).2 (some ⟨[]⟩)⟩

/-!
## Centroid reduction pass (`process_geojson`, compute_centroids.py 59-138)
-/

/-- A JSON property value as the default filter reads it. -/
inductive PVal where
  | vnull
  | vnum (q : ℚ)
  | vstr (s : String)
  | vbool (b : Bool)
deriving DecidableEq, Repr

/-- Python truthiness of a property value. -/
def pvalTruthy : PVal → Bool
  | .vnull => false
  | .vnum q => decide (q ≠ 0)
  | .vstr s => decide (s ≠ "")
  | .vbool b => b

/-- `props.get(key)`: the stored value, or `None` (`vnull`) when absent. -/
def pyGetProp (props : List (String × PVal)) (key : String) : PVal :=
  match props with
  | [] => .vnull
  | (k, v) :: rest => if k = key then v else pyGetProp rest key

/-- A feature as the centroid pass reads it: its `properties` dict and its
geometry (`none` for a Python-falsy geometry: absent, null, or `{}`). -/
structure GeoFeature where
  properties : List (String × PVal)
  geometry : Option Geometry

/-- The default predicate (line 78):
`f.get("properties", default empty).get("building") is not None`. -/
def default_filter (f : GeoFeature) : Bool :=
  !(decide (pyGetProp f.properties "building" = PVal.vnull))

/-- The feature loop of `process_geojson` (lines 81-111) on the parsed
feature list: features rejected by the filter are passed over silently;
a falsy geometry or a falsy reducer result counts as skipped; otherwise a
`Point` feature with the original properties is emitted.  An exception from
`compute_centroid` propagates and aborts the pass. -/
def process_geojson : List GeoFeature → Except PyErr (List GeoFeature × ℕ)
  | [] => .ok ([], 0)
  | f :: rest =>
    if default_filter f then
      match f.geometry with
      | none =>
        match process_geojson rest with
        | .error e => .error e
        | .ok (cs, sk) => .ok (cs, sk + 1)
      | some g =>
        match compute_centroid g with
        | .error e => .error e
        | .ok c =>
          if truthy c then
            match process_geojson rest with
            | .error e => .error e
            | .ok (cs, sk) => .ok (⟨f.properties, some ⟨some "Point", c⟩⟩ :: cs, sk)
          else
            match process_geojson rest with
            | .error e => .error e
            | .ok (cs, sk) => .ok (cs, sk + 1)
    else process_geojson rest

/-- Claim C9, counterexample: a feature whose `building` property is the
falsy-but-present empty string is selected by the default filter and emitted,
although the claim says a falsy `building` tag must be excluded. -/
theorem default_filter_counterexample :
    pvalTruthy (pyGetProp [("building", PVal.vstr "")] "building") = false ∧
    default_filter ⟨[("building", PVal.vstr "")], none⟩ = true ∧
    process_geojson [⟨[("building", PVal.vstr "")],
        some ⟨some "Point", CoordVal.arr [CoordVal.num 1, CoordVal.num 2]⟩⟩] =
      Except.ok ([⟨[("building", PVal.vstr "")],
        some ⟨some "Point", CoordVal.arr [CoordVal.num 1, CoordVal.num 2]⟩⟩], 0) :=
  ⟨rfl, rfl, rfl⟩

/-- Claim C9 (amended): the default predicate selects exactly the features
whose `building` property is present and non-null (`is not None`): every
feature with a truthy `building` value is selected, but so is any falsy
non-null value (empty string, 0, false); only an absent or null `building`
excludes a feature. -/
theorem default_filter_semantics (props : List (String × PVal))
    (g : Option Geometry) :
    (default_filter ⟨props, g⟩ = true ↔ pyGetProp props "building" ≠ PVal.vnull) ∧
    (pvalTruthy (pyGetProp props "building") = true →
      default_filter ⟨props, g⟩ = true) := by
  constructor
  · simp [default_filter]
  · intro h
    simp only [default_filter, Bool.not_eq_true', decide_eq_false_iff_not]
    intro e
    rw [e] at h
    cases h

theorem default_filter_semantics_witness :
    default_filter ⟨[("building", PVal.vstr "yes")], none⟩ = true :=
  (default_filter_semantics [("building", PVal.vstr "yes")] none).2 rfl

/-- Claim C10, counterexample: a predicate-passing feature whose geometry
makes the reducer raise (a `Polygon` with an empty rings sequence) is neither
emitted nor counted as skipped — the whole pass aborts with the exception, so
there is no produced/skipped accounting at all. -/
theorem process_geojson_raises_counterexample :
    process_geojson [⟨[("building", PVal.vstr "yes")],
        some ⟨some "Polygon", CoordVal.arr []⟩⟩] =
      Except.error PyErr.indexError ∧
    ∀ cs sk, process_geojson [⟨[("building", PVal.vstr "yes")],
        some ⟨some "Polygon", CoordVal.arr []⟩⟩] ≠ Except.ok (cs, sk) :=
  ⟨rfl, fun _ _ h => nomatch h⟩

/-- Claim C10 (amended): whenever the pass completes (the reducer raises on
no selected feature), a feature rejected by the predicate is neither emitted
nor counted as skipped, and every predicate-passing feature is either emitted
as a `Point` feature carrying the original properties verbatim or counted as
skipped: produced plus skipped equals exactly the number of predicate-passing
features, and every emitted feature carries some passing feature's properties
with a `Point` geometry. -/
theorem process_geojson_accounting (fs : List GeoFeature)
    (cs : List GeoFeature) (sk : ℕ)
    (h : process_geojson fs = Except.ok (cs, sk)) :
    cs.length + sk = (fs.filter default_filter).length ∧
    ∀ c ∈ cs, ∃ f ∈ fs, default_filter f = true ∧
      c.properties = f.properties ∧ ∃ v, c.geometry = some ⟨some "Point", v⟩ := by
  induction fs generalizing cs sk with
  | nil =>
    simp only [process_geojson, Except.ok.injEq, Prod.mk.injEq] at h
    obtain ⟨rfl, rfl⟩ := h
    simp
  | cons f rest ih =>
    simp only [process_geojson] at h
    by_cases hf : default_filter f = true
    · rw [if_pos hf] at h
      cases hg : f.geometry with
      | none =>
        rw [hg] at h
        dsimp only at h
        cases hr : process_geojson rest with
        | error e =>
          rw [hr] at h
          simp at h
        | ok p =>
          obtain ⟨cs', sk'⟩ := p
          rw [hr] at h
          dsimp only at h
          simp only [Except.ok.injEq, Prod.mk.injEq] at h
          obtain ⟨rfl, rfl⟩ := h
          obtain ⟨ih1, ih2⟩ := ih _ _ hr
          constructor
          · rw [List.filter_cons_of_pos hf, List.length_cons]
            omega
          · intro c hc
            obtain ⟨f', hf', hdf, hprops, v, hgeom⟩ := ih2 c hc
            exact ⟨f', List.mem_cons_of_mem _ hf', hdf, hprops, v, hgeom⟩
      | some g =>
        rw [hg] at h
        dsimp only at h
        cases hcc : compute_centroid g with
        | error e =>
          rw [hcc] at h
          simp at h
        | ok c0 =>
          rw [hcc] at h
          dsimp only at h
          by_cases htr : truthy c0 = true
          · rw [if_pos htr] at h
            cases hr : process_geojson rest with
            | error e =>
              rw [hr] at h
              simp at h
            | ok p =>
              obtain ⟨cs', sk'⟩ := p
              rw [hr] at h
              dsimp only at h
              simp only [Except.ok.injEq, Prod.mk.injEq] at h
              obtain ⟨rfl, rfl⟩ := h
              obtain ⟨ih1, ih2⟩ := ih _ _ hr
              constructor
              · rw [List.filter_cons_of_pos hf, List.length_cons, List.length_cons]
                omega
              · intro c hc
                rcases List.mem_cons.mp hc with rfl | hc'
                · exact ⟨f, List.mem_cons_self _ _, hf, rfl, c0, rfl⟩
                · obtain ⟨f', hf', hdf, hprops, v, hgeom⟩ := ih2 c hc'
                  exact ⟨f', List.mem_cons_of_mem _ hf', hdf, hprops, v, hgeom⟩
          · rw [if_neg htr] at h
            cases hr : process_geojson rest with
            | error e =>
              rw [hr] at h
              simp at h
            | ok p =>
              obtain ⟨cs', sk'⟩ := p
              rw [hr] at h
              dsimp only at h
              simp only [Except.ok.injEq, Prod.mk.injEq] at h
              obtain ⟨rfl, rfl⟩ := h
              obtain ⟨ih1, ih2⟩ := ih _ _ hr
              constructor
              · rw [List.filter_cons_of_pos hf, List.length_cons]
                omega
              · intro c hc
                obtain ⟨f', hf', hdf, hprops, v, hgeom⟩ := ih2 c hc
                exact ⟨f', List.mem_cons_of_mem _ hf', hdf, hprops, v, hgeom⟩
    · rw [if_neg hf] at h
      obtain ⟨ih1, ih2⟩ := ih _ _ h
      constructor
      · rw [List.filter_cons_of_neg (by simpa using hf)]
        exact ih1
      · intro c hc
        obtain ⟨f', hf', hdf, hprops, v, hgeom⟩ := ih2 c hc
        exact ⟨f', List.mem_cons_of_mem _ hf', hdf, hprops, v, hgeom⟩

theorem process_geojson_accounting_witness :
    (([⟨[("building", PVal.vstr "yes")],
        some ⟨some "Point", CoordVal.arr [CoordVal.num 1, CoordVal.num 2]⟩⟩,
      ⟨[], none⟩] : List GeoFeature).filter default_filter).length = 1 + 0 :=
  ((process_geojson_accounting
    [⟨[("building", PVal.vstr "yes")],
      some ⟨some "Point", CoordVal.arr [CoordVal.num 1, CoordVal.num 2]⟩⟩,
     ⟨[], none⟩] _ _ rfl).1).symm
